import Mathlib

/-!
Verification of the citation-renumbering and image-correlation logic of the
chat-with-pdfs repository (`src/core/chat_engine.py`, `src/utils/image.py`).

Texts are shallowly embedded as `List Char`.  The regular-expression scans of
the Python code (`\[(\d+)\]` and `!\[\]\(([^)]+)\)`) are embedded as
left-to-right, non-overlapping state machines that are provably equivalent to
the regex semantics used by `re.findall` / `re.sub` on these patterns.
All definitions are executable and structurally recursive.
-/

namespace ChatPdf

/-- Text is modelled as a list of characters (Python `str`, restricted to the
character operations the code performs). -/
abbrev Text := List Char

/-! ## Decimal digits: rendering and parsing

`replace_citation` in `chat_engine.py` renders `f"[{new_num}]"`; the regex
captures `\d+` and applies `int`.  We model decimal rendering (`natRepr`) and
parsing (`digitsVal`) of ASCII digits. -/

/-- The ASCII character of a decimal digit (values `≥ 9` clamp to `'9'`;
only used with `d < 10`). -/
def digitChar (d : Nat) : Char :=
  if d = 0 then '0' else if d = 1 then '1' else if d = 2 then '2'
  else if d = 3 then '3' else if d = 4 then '4' else if d = 5 then '5'
  else if d = 6 then '6' else if d = 7 then '7' else if d = 8 then '8' else '9'

/-- Numeric value of a digit string, as Python `int` computes it on a
matched `\d+` group (most significant digit first). -/
def digitsVal (ds : Text) : Nat :=
  ds.foldl (fun a c => a * 10 + (c.toNat - 48)) 0

/-- Little-endian decimal digits of `n`, with explicit fuel so the definition
is structurally recursive (fuel `≥ n` suffices). -/
def natToRev (fuel : Nat) (n : Nat) : List Nat :=
  match fuel with
  | 0 => []
  | f + 1 => if n = 0 then [] else n % 10 :: natToRev f (n / 10)

/-- Decimal rendering of a natural number, as Python `str`/f-strings render
a nonnegative `int`. -/
def natRepr (n : Nat) : Text :=
  if n = 0 then ['0'] else ((natToRev n n).reverse).map digitChar

/-- Decimal rendering of a Python `int` (possibly negative). -/
def intRepr (i : Int) : Text :=
  if i < 0 then '-' :: natRepr i.natAbs else natRepr i.toNat

lemma digitChar_isDigit (d : Nat) : (digitChar d).isDigit = true := by
  unfold digitChar
  repeat' split
  all_goals decide

lemma digitChar_val (d : Nat) (hd : d < 10) : (digitChar d).toNat - 48 = d := by
  interval_cases d <;> decide

lemma natToRev_eq_digits : ∀ (fuel n : Nat), n ≤ fuel → natToRev fuel n = Nat.digits 10 n := by
  intro fuel
  induction fuel with
  | zero =>
    intro n hn
    interval_cases n
    simp [natToRev]
  | succ f ih =>
    intro n hn
    by_cases h0 : n = 0
    · subst h0; simp [natToRev]
    · have hpos : 0 < n := Nat.pos_of_ne_zero h0
      have hdiv : n / 10 ≤ f := by
        have : n / 10 < n := Nat.div_lt_self hpos (by norm_num)
        omega
      rw [natToRev, if_neg h0, ih _ hdiv, Nat.digits_def' (by norm_num : 1 < 10) hpos]

lemma foldl_reverse_ofDigits : ∀ (L : List Nat),
    L.reverse.foldl (fun a d => a * 10 + d) 0 = Nat.ofDigits 10 L := by
  intro L
  induction L with
  | nil => simp [Nat.ofDigits]
  | cons d L ih =>
    rw [List.reverse_cons, List.foldl_append, ih, Nat.ofDigits_cons]
    simp
    ring

lemma digitsVal_natRepr (n : Nat) : digitsVal (natRepr n) = n := by
  by_cases h0 : n = 0
  · subst h0; decide
  · rw [natRepr, if_neg h0]
    unfold digitsVal
    rw [List.foldl_map]
    have hlt : ∀ d ∈ (natToRev n n).reverse, d < 10 := by
      intro d hd
      rw [List.mem_reverse, natToRev_eq_digits n n le_rfl] at hd
      exact Nat.digits_lt_base (by norm_num) hd
    have hcong : (natToRev n n).reverse.foldl
        (fun a d => a * 10 + ((digitChar d).toNat - 48)) 0
        = (natToRev n n).reverse.foldl (fun a d => a * 10 + d) 0 := by
      apply List.foldl_ext
      intro a d hd
      rw [digitChar_val d (hlt d hd)]
    rw [hcong, foldl_reverse_ofDigits, natToRev_eq_digits n n le_rfl,
      Nat.ofDigits_digits]

lemma natRepr_all_digit (n : Nat) : ∀ c ∈ natRepr n, c.isDigit = true := by
  intro c hc
  by_cases h0 : n = 0
  · subst h0; simp [natRepr] at hc; subst hc; decide
  · rw [natRepr, if_neg h0] at hc
    obtain ⟨d, _, rfl⟩ := List.mem_map.mp hc
    exact digitChar_isDigit d

lemma natRepr_ne_nil (n : Nat) : natRepr n ≠ [] := by
  by_cases h0 : n = 0
  · subst h0; simp [natRepr]
  · rw [natRepr, if_neg h0]
    intro hcon
    have h1 : (natToRev n n).reverse = [] := List.map_eq_nil_iff.mp hcon
    have h2 : natToRev n n = [] := by
      have := congrArg List.reverse h1
      simpa using this
    rw [natToRev_eq_digits n n le_rfl] at h2
    exact h0 (Nat.digits_eq_nil_iff_eq_zero.mp h2)

/-! ## Citation markers: the regex `\[(\d+)\]`

`chat_engine.py` (lines 127-142) extracts citation markers and rewrites them
with `re.sub(r"\[(\d+)\]", replace_citation, synthesized_answer)`.  The
pattern matches a literal `[`, a maximal nonempty run of digits, and a
literal `]`; `re` scans left to right without overlaps, advancing one
character past a failed start position.  `scanGo`/`renGo` implement exactly
this scan as a state machine: the state `some ds` means the scanner stands
after a `[` having consumed the digit characters `ds`. -/

/-- All citation markers (values of `\[(\d+)\]` matches) of a text, in order
of occurrence, with multiplicity — the `re.findall` view of the answer. -/
def scanGo : Text → Option Text → List Nat
  | [], _ => []
  | c :: cs, none => if c = '[' then scanGo cs (some []) else scanGo cs none
  | c :: cs, some ds =>
      if c.isDigit then scanGo cs (some (ds ++ [c]))
      else if c = ']' ∧ ds ≠ [] then digitsVal ds :: scanGo cs none
      else if c = '[' then scanGo cs (some []) else scanGo cs none

def scanMarkers (t : Text) : List Nat := scanGo t none

/-- Embedding of `re.sub(r"\[(\d+)\]", repl, text)` where `repl` maps the matched integer
`n` to `f"[{f n}]"` — the rewriting loop of the citation renumbering. -/
def renGo (f : Nat → Nat) : Text → Option Text → Text
  | [], none => []
  | [], some ds => '[' :: ds
  | c :: cs, none => if c = '[' then renGo f cs (some []) else c :: renGo f cs none
  | c :: cs, some ds =>
      if c.isDigit then renGo f cs (some (ds ++ [c]))
      else if c = ']' ∧ ds ≠ [] then
        '[' :: (natRepr (f (digitsVal ds)) ++ ']' :: renGo f cs none)
      else if c = '[' then '[' :: (ds ++ renGo f cs (some []))
      else '[' :: (ds ++ c :: renGo f cs none)

def renumber (f : Nat → Nat) (t : Text) : Text := renGo f t none

/-! ## First-occurrence deduplication and the citation map -/

/-- First-occurrence deduplication (`seen` is the set of already-emitted
values). -/
def dedupFAux (seen : List Nat) : List Nat → List Nat
  | [] => []
  | x :: xs => if x ∈ seen then dedupFAux seen xs else x :: dedupFAux (x :: seen) xs

def dedupF (l : List Nat) : List Nat := dedupFAux [] l

/-- Modelled from the spec: `extract_citation_indices` lives in
`src/utils/source.py`, which is not part of the provided sources; the spec
(§4.1) defines it as "find every substring matching an integer enclosed in
square brackets" and "produce the ordered list of distinct integers in
first-occurrence order (this is the citation indices)". -/
def extract_citation_indices (t : Text) : List Nat := dedupF (scanMarkers t)

/-- The citation-map construction of `chat_engine.py` lines 131-134:
`for idx in citation_indices: if idx not in citation_map:
citation_map[idx] = len(citation_map) + 1`, with the Python dict modelled as
an insertion-ordered association list. -/
def buildCitationMap (l : List Nat) : List (Nat × Nat) :=
  l.foldl (fun m idx => if m.any (fun p => p.1 == idx) then m
                        else m ++ [(idx, m.length + 1)]) []

/-- Lookup `citation_map.get(n)` on the association list. -/
def lookupMap (m : List (Nat × Nat)) (n : Nat) : Option Nat :=
  (m.find? (fun p => p.1 == n)).map (fun p => p.2)

/-- Lookup `citation_map.get(orig_num, orig_num)` of `replace_citation`. -/
def applyMap (m : List (Nat × Nat)) (n : Nat) : Nat := (lookupMap m n).getD n

/-- The citation renumbering of `process_query` (`chat_engine.py` 127-142):
extract citation indices, build the map, rewrite the text.  Returns the
citation map and the rewritten answer. -/
def renumberAnswer (t : Text) : List (Nat × Nat) × Text :=
  let cm := buildCitationMap (extract_citation_indices t)
  (cm, renumber (applyMap cm) t)

def renumberText (t : Text) : Text := (renumberAnswer t).2

/-! ## Data model of the Image Correlator

Source passages (`llama_index` nodes) are modelled by the attributes the code
reads: `text` and `metadata`, each possibly absent (`hasattr` checks in
`image.py` lines 31-35, `getattr(source, ..., {})` in `chat_engine.py`).
The metadata mapping is modelled by the two fields the code reads: `page`
(either an `int` or some non-`int` value, or absent) and `images` (a JSON
string; we embed the *outcome* of `json.loads` on it: a decode error, a
non-list value, or a list of entries, each entry a dict with the keys the
code reads, or a non-dict). -/

inductive PageV
  | intV (n : Int)
  | nonInt
deriving DecidableEq

inductive MetaEntry
  | nondict
  | dict (file_path : Option Text) (path : Option Text) (caption : Option Text)
deriving DecidableEq

inductive ImagesParse
  | badJSON
  | nonList
  | entries (l : List MetaEntry)
deriving DecidableEq

structure Metadata where
  page : Option PageV
  images : Option ImagesParse
deriving DecidableEq

structure Source where
  text? : Option Text
  metadata? : Option Metadata
deriving DecidableEq

/-- An image information dictionary.  `image.py` builds `{'path': ...,
'caption': ...}`; the metadata loop of `chat_engine.py` builds
`{'file_path': ..., 'caption': ...}`.  Both shapes are kept: a field is
`none` exactly when the corresponding key is absent from the Python dict. -/
structure ImageRec where
  file_path : Option Text
  path : Option Text
  caption : Text
deriving DecidableEq

abbrev DocId := Text

/-! ## `image.py`: `process_source_for_images` -/

/-- Python `str.strip()` whitespace characters. -/
def pyIsSpace (c : Char) : Bool :=
  c = ' ' || c = '\t' || c = '\n' || c = '\r' || c = '\x0b' || c = '\x0c'

def stripText (t : Text) : Text :=
  ((t.dropWhile pyIsSpace).reverse.dropWhile pyIsSpace).reverse

/-- Embedding of `os.path.basename` (POSIX): the part after the last `/`. -/
def pathBase (p : Text) : Text := ((p.reverse).takeWhile (fun c => c ≠ '/')).reverse

/-- Embedding of `needle in hay` on Python strings (substring containment). -/
def isPrefixText : Text → Text → Bool
  | [], _ => true
  | _ :: _, [] => false
  | a :: as, b :: bs => a = b && isPrefixText as bs

def isSubText (needle : Text) : Text → Bool
  | [] => needle.isEmpty
  | c :: rest => isPrefixText needle (c :: rest) || isSubText needle rest

/-- Embedding of `page_display = page_num + 1 if isinstance(page_num, int) else 1`
(`image.py` lines 64, 84, 116). -/
def pageDisplay (md : Metadata) : Int :=
  match md.page with
  | some (PageV.intV n) => n + 1
  | _ => 1

/-- The caption `f"Image from page \x7bpage_display\x7d"`. -/
def captionFor (pd : Int) : Text := "Image from page ".data ++ intRepr pd

/-- State machine for `re.findall(r'!\[\]\(([^)]+)\)', text)`: the states
track how much of the literal prefix `![](` has been matched; `body acc`
means the scanner is inside the parentheses having read `acc`.  A failed
match restarts one character past the `!` that began it, which the machine
realizes by falling back to `inBang` exactly when the current character is
`!`. -/
inductive RefState
  | start
  | inBang
  | inBrack
  | inClose
  | body (acc : Text)

def refGo : Text → RefState → List Text
  | [], _ => []
  | c :: cs, RefState.start => refGo cs (if c = '!' then RefState.inBang else RefState.start)
  | c :: cs, RefState.inBang =>
      if c = '[' then refGo cs RefState.inBrack
      else refGo cs (if c = '!' then RefState.inBang else RefState.start)
  | c :: cs, RefState.inBrack =>
      if c = ']' then refGo cs RefState.inClose
      else refGo cs (if c = '!' then RefState.inBang else RefState.start)
  | c :: cs, RefState.inClose =>
      if c = '(' then refGo cs (RefState.body [])
      else refGo cs (if c = '!' then RefState.inBang else RefState.start)
  | c :: cs, RefState.body acc =>
      if c = ')' then
        (if acc.isEmpty then refGo cs RefState.start else acc :: refGo cs RefState.start)
      else refGo cs (RefState.body (acc ++ [c]))

/-- All Markdown image references `![](path)` of a passage text, in order. -/
def findInlineRefs (t : Text) : List Text := refGo t RefState.start

/-- Processing of one extracted reference (`image.py` lines 53-93): strip;
direct match against `available_images`, else first available image whose
name contains the reference's basename; captions synthesized from the
source's page metadata. -/
def inlineMatch (avail : List Text) (pd : Int) (ref : Text) : Option ImageRec :=
  let p := stripText ref
  if p ∈ avail then some ⟨none, some p, captionFor pd⟩
  else
    match avail.find? (fun a => isSubText (pathBase p) a) with
    | some a => some ⟨none, some a, captionFor pd⟩
    | none => none

def processInline (pd : Int) (text : Text) (avail : List Text) : List ImageRec :=
  (findInlineRefs text).filterMap (inlineMatch avail pd)

/-- The metadata fallback of `image.py` lines 96-127: ran only when no inline
images were found; skips non-dict entries and entries without a `file_path`
key; appends (and stops at) the first entry whose `file_path` is in
`available_images`.  A JSON decode error is caught and contributes nothing;
a parse to a non-list fails the `isinstance` check and contributes
nothing. -/
def metaFallback (pd : Int) (avail : List Text) : List MetaEntry → List ImageRec
  | [] => []
  | MetaEntry.nondict :: rest => metaFallback pd avail rest
  | MetaEntry.dict fp _ _ :: rest =>
      match fp with
      | some file_path =>
          if file_path ∈ avail then [⟨none, some file_path, captionFor pd⟩]
          else metaFallback pd avail rest
      | none => metaFallback pd avail rest

/-- Embedding of `process_source_for_images(source, current_doc_id, available_images)`
(`image.py` lines 12-129).  `current_doc_id` is only used for logging in the
source and is carried for fidelity. -/
def process_source_for_images (source : Source) (current_doc_id : DocId)
    (available_images : List Text) : List ImageRec :=
  match source.metadata?, source.text? with
  | some md, some text =>
      let inline := processInline (pageDisplay md) text available_images
      if inline.isEmpty then
        match md.images with
        | some (ImagesParse.entries l) => metaFallback (pageDisplay md) available_images l
        | _ => []
      else inline
  | _, _ => []

/-! ## `chat_engine.py`: `_extract_images_from_sources`

The function reads the stored answer text from session state; it is
parametrized here by that stored answer (`answer?`, `none` when no response
is stored for the file), by the document id lookup result (`doc_id?`,
`none` when missing or falsy) and by `available_images` (the result of
`get_document_images`, an input to this component). -/

/-- Lines 221-223: `for idx in cited_indices: if 1 <= idx <=
len(source_nodes): cited_sources.append(source_nodes[idx-1])`. -/
def mapCitedSources {α : Type} (source_nodes : List α) (cited_indices : List Nat) : List α :=
  cited_indices.foldl
    (fun acc idx =>
      if 1 ≤ idx ∧ idx ≤ source_nodes.length then
        match source_nodes[idx - 1]? with
        | some s => acc ++ [s]
        | none => acc
      else acc) []

/-- Embedding of `img_meta.get('file_path') or img_meta.get('path')` (line 260): Python
`or` takes the first truthy operand; a missing key or empty string falls
through.  The empty list encodes a falsy result. -/
def pyOrPath (fp p : Option Text) : Text :=
  match fp with
  | some s => if s.isEmpty then (match p with | some s2 => s2 | none => []) else s
  | none => match p with | some s2 => s2 | none => []

/-- The metadata image loop of `chat_engine.py` lines 259-267, accumulating
into the response-wide `images` list.  A non-dict entry raises
`AttributeError` at `img_meta.get`, which the surrounding
`except Exception` catches: the loop stops there, keeping what was already
accumulated.  Note the inclusion condition is only `if img_path and not
any(img.get('file_path') == img_path for img in images)` — the available
image index is not consulted. -/
def processMetaEntries (acc : List ImageRec) : List MetaEntry → List ImageRec
  | [] => acc
  | MetaEntry.nondict :: _ => acc
  | MetaEntry.dict fp p c :: rest =>
      let img_path := pyOrPath fp p
      if img_path ≠ [] ∧ ¬ acc.any (fun img => decide (img.file_path = some img_path)) then
        processMetaEntries (acc ++ [⟨some img_path, none, c.getD []⟩]) rest
      else processMetaEntries acc rest

/-- Lines 272-275: merge of the `process_source_for_images` result, "avoiding
duplicates" by comparing `img.get('file_path')` — note the records produced
by `image.py` carry the key `path`, not `file_path`, so both `get` calls
yield `None` for them. -/
def mergeSourceImages (acc : List ImageRec) : List ImageRec → List ImageRec
  | [] => acc
  | info :: rest =>
      if ¬ acc.any (fun img => decide (img.file_path = info.file_path)) then
        mergeSourceImages (acc ++ [info]) rest
      else mergeSourceImages acc rest

/-- Lines 254-269: parse the `images` metadata of one cited source.  A decode
error or an iteration over a non-list raises and is caught by the broad
`except Exception`, contributing nothing; an absent metadata attribute
yields `{}` hence `json.loads('[]') == []`. -/
def chatMetaImages (acc : List ImageRec) (src : Source) : List ImageRec :=
  match src.metadata? with
  | none => acc
  | some md =>
      match md.images with
      | some (ImagesParse.entries l) => processMetaEntries acc l
      | _ => acc

/-- Processing of one cited source (loop body, lines 240-275): compute
`process_source_for_images`, append metadata images, then merge the inline
results. -/
def processOneSource (doc_id : DocId) (avail : List Text)
    (acc : List ImageRec) (src : Source) : List ImageRec :=
  mergeSourceImages (chatMetaImages acc src) (process_source_for_images src doc_id avail)

/-- Citation indices re-extracted from the stored answer (lines 212-218). -/
def citedIndicesOf (answer? : Option Text) : List Nat :=
  match answer? with
  | some a => extract_citation_indices a
  | none => []

/-- Embedding of `ChatEngine._extract_images_from_sources` (`chat_engine.py` lines
178-278). -/
def extract_images_from_sources (source_nodes : List Source) (doc_id? : Option DocId)
    (answer? : Option Text) (available_images : List Text) : List ImageRec :=
  if source_nodes.isEmpty then []
  else
    match doc_id? with
    | none => []
    | some doc_id =>
        let cited_indices := citedIndicesOf answer?
        let cited_sources := mapCitedSources source_nodes cited_indices
        if cited_sources.isEmpty ∧ ¬ cited_indices.isEmpty then []
        else if cited_sources.isEmpty then []
        else cited_sources.foldl (processOneSource doc_id available_images) []

/-! ## `image.py`: `get_document_images`

File-system effects (`os.path.abspath`, `os.path.exists`, `glob.glob`) are
embedded as an explicit environment `FS`; the resolution is then a pure
function of that environment, which is what makes the spec's determinism
requirement expressible.  The images root directory comes from the missing
`config.py` (`IMAGES_PATH`) and is a parameter. -/

structure FS where
  abspath : Text → Text
  pathExists : Text → Bool
  glob : Text → List Text

/-- Embedding of `os.path.join(a, b)` (POSIX, for the shapes used here): `b` if `b` is
absolute, else `a + '/' + b`. -/
def joinPath (a b : Text) : Text :=
  match b with
  | '/' :: _ => b
  | _ => a ++ '/' :: b

/-- Embedding of `os.path.splitext(name)[0]` for a basename: strip the extension starting
at the last dot, where a dot inside the leading run of dots does not count. -/
def splitextRoot (name : Text) : Text :=
  let ld := name.takeWhile (fun c => c = '.')
  let rest := name.drop ld.length
  if rest.any (fun c => c = '.') then
    ld ++ ((rest.reverse.dropWhile (fun c => c ≠ '.')).drop 1).reverse
  else name

/-- Resolution of one recorded image path (`image.py` lines 154-204):
(1) the absolutized path exists; (2) the path exists as given; (3) exact
filename match inside the document's image directory; (4) first match of the
wildcard pattern `*<stem>*.jpg` in that directory; otherwise unresolved. -/
def resolvePath (fs : FS) (imagesPath : Text) (doc_id : DocId) (img_path : Text) :
    Option Text :=
  let abs_path := fs.abspath img_path
  if fs.pathExists abs_path then some abs_path
  else if fs.pathExists img_path then some img_path
  else
    let doc_dir := joinPath imagesPath doc_id
    if fs.pathExists doc_dir then
      let img_filename := pathBase img_path
      let exact_path := joinPath doc_dir img_filename
      if fs.pathExists exact_path then some exact_path
      else
        let pattern := joinPath doc_dir
          ('*' :: splitextRoot (pathBase img_filename) ++ "*.jpg".data)
        match fs.glob pattern with
        | m :: _ => some m
        | [] => none
    else none

/-- Embedding of `get_document_images(doc_id)` (`image.py` lines 136-213): `recorded?` is
the session-state lookup `document_image_map.get(doc_id)`.  Returns the
valid images together with the count of unresolved paths (the code's
`invalid_images` counter). -/
def get_document_images (fs : FS) (imagesPath : Text) (doc_id : DocId)
    (recorded? : Option (List Text)) : List Text × Nat :=
  match recorded? with
  | none => ([], 0)
  | some paths =>
      paths.foldl
        (fun acc p =>
          match resolvePath fs imagesPath doc_id p with
          | some v => (acc.1 ++ [v], acc.2)
          | none => (acc.1, acc.2 + 1)) ([], 0)

/-! ## Concrete sample inputs used by witnesses and counterexamples -/

def imgPath1 : Text := "img1.jpg".data

/-- A passage citing an inline image that is also listed in its `images`
metadata (under `file_path`). -/
def srcInlineMeta : Source :=
  ⟨some ("See ![](img1.jpg)".data),
   some ⟨none, some (ImagesParse.entries
     [MetaEntry.dict (some imgPath1) none (some ("Fig 1".data))])⟩⟩

/-- A passage with no text content and one metadata image entry whose path
is nowhere in the available-image index. -/
def srcMetaOnly : Source :=
  ⟨some [],
   some ⟨none, some (ImagesParse.entries
     [MetaEntry.dict (some ("x.jpg".data)) none (some ("c".data))])⟩⟩

/-- A passage with an inline image reference and integer page metadata. -/
def srcInline : Source := ⟨some ("![](img1.jpg)".data), some ⟨some (PageV.intV 0), none⟩⟩

/-- A passage whose `images` metadata fails to decode as JSON. -/
def srcBadJSON : Source := ⟨some [], some ⟨none, some ImagesParse.badJSON⟩⟩

/-- A source object lacking the `text` attribute. -/
def srcNoText : Source := ⟨none, some ⟨none, none⟩⟩

/-- A sample file-system environment: only the directory `images/doc1`
exists, and the glob search returns one match. -/
def fsSample : FS :=
  ⟨fun p => '/' :: p,
   fun p => decide (p = "images/doc1".data),
   fun _ => ["images/doc1/a_123.jpg".data]⟩

/-! ## Properties of first-occurrence deduplication and the citation map -/

lemma dedupFAux_congr : ∀ (l s₁ s₂ : List Nat), (∀ a, a ∈ s₁ ↔ a ∈ s₂) →
    dedupFAux s₁ l = dedupFAux s₂ l := by
  intro l
  induction l with
  | nil => intro s₁ s₂ _; rfl
  | cons x xs ih =>
    intro s₁ s₂ h
    by_cases hx : x ∈ s₁
    · rw [dedupFAux, if_pos hx, dedupFAux, if_pos ((h x).mp hx)]
      exact ih s₁ s₂ h
    · rw [dedupFAux, if_neg hx, dedupFAux, if_neg (fun hc => hx ((h x).mpr hc))]
      congr 1
      apply ih
      intro a
      simp only [List.mem_cons]
      exact or_congr Iff.rfl (h a)

lemma dedupFAux_idem : ∀ (l s : List Nat), dedupFAux s (dedupFAux s l) = dedupFAux s l := by
  intro l
  induction l with
  | nil => intro s; rfl
  | cons x xs ih =>
    intro s
    by_cases hx : x ∈ s
    · rw [dedupFAux, if_pos hx]
      exact ih s
    · rw [dedupFAux, if_neg hx, dedupFAux, if_neg hx]
      congr 1
      exact ih (x :: s)

lemma mem_dedupFAux : ∀ (l : List Nat) (s : List Nat) (a : Nat),
    a ∈ l → a ∉ s → a ∈ dedupFAux s l := by
  intro l
  induction l with
  | nil => intro s a ha _; cases ha
  | cons x xs ih =>
    intro s a ha hs
    by_cases hx : x ∈ s
    · rw [dedupFAux, if_pos hx]
      rcases List.mem_cons.mp ha with rfl | ha'
      · exact absurd hx hs
      · exact ih s a ha' hs
    · rw [dedupFAux, if_neg hx]
      rcases List.mem_cons.mp ha with rfl | ha'
      · exact List.mem_cons_self _ _
      · by_cases hax : a = x
        · subst hax; exact List.mem_cons_self _ _
        · exact List.mem_cons_of_mem _ (ih (x :: s) a ha'
            (fun hc => (List.mem_cons.mp hc).elim hax hs))

lemma dedupFAux_nodup : ∀ (l s : List Nat),
    (dedupFAux s l).Nodup ∧ ∀ a ∈ dedupFAux s l, a ∉ s := by
  intro l
  induction l with
  | nil => intro s; exact ⟨List.nodup_nil, by intro a ha; cases ha⟩
  | cons x xs ih =>
    intro s
    by_cases hx : x ∈ s
    · rw [dedupFAux, if_pos hx]; exact ih s
    · rw [dedupFAux, if_neg hx]
      obtain ⟨hnd, hmem⟩ := ih (x :: s)
      constructor
      · exact List.nodup_cons.mpr ⟨fun hc => (hmem x hc) (List.mem_cons_self _ _), hnd⟩
      · intro a ha
        rcases List.mem_cons.mp ha with rfl | ha'
        · exact hx
        · exact fun hc => (hmem a ha') (List.mem_cons_of_mem _ hc)

lemma dedupFAux_of_nodup : ∀ (l s : List Nat), l.Nodup → (∀ a ∈ l, a ∉ s) →
    dedupFAux s l = l := by
  intro l
  induction l with
  | nil => intro s _ _; rfl
  | cons x xs ih =>
    intro s hnd hdis
    rw [dedupFAux, if_neg (hdis x (List.mem_cons_self _ _))]
    congr 1
    apply ih (x :: s) (List.nodup_cons.mp hnd).2
    intro a ha
    intro hc
    rcases List.mem_cons.mp hc with rfl | hc'
    · exact (List.nodup_cons.mp hnd).1 ha
    · exact hdis a (List.mem_cons_of_mem _ ha) hc'

lemma dedupFAux_map (f : Nat → Nat) : ∀ (l s : List Nat),
    (∀ a b, a ∈ s ++ l → b ∈ s ++ l → f a = f b → a = b) →
    dedupFAux (s.map f) (l.map f) = (dedupFAux s l).map f := by
  intro l
  induction l with
  | nil => intro s _; rfl
  | cons x xs ih =>
    intro s hinj
    have hx_mem : x ∈ s ++ x :: xs := by simp
    have hmap_iff : f x ∈ s.map f ↔ x ∈ s := by
      constructor
      · intro h
        obtain ⟨a, ha, hfa⟩ := List.mem_map.mp h
        have : a = x := hinj a x (by simp [ha]) hx_mem hfa
        exact this ▸ ha
      · exact fun h => List.mem_map.mpr ⟨x, h, rfl⟩
    rw [List.map_cons]
    by_cases hx : x ∈ s
    · rw [dedupFAux, if_pos (hmap_iff.mpr hx), dedupFAux, if_pos hx]
      apply ih
      intro a b ha hb
      exact hinj a b (by simp at ha ⊢; tauto) (by simp at hb ⊢; tauto)
    · rw [dedupFAux, if_neg (fun hc => hx (hmap_iff.mp hc)), dedupFAux, if_neg hx,
        List.map_cons]
      have : f x :: List.map f s = (x :: s).map f := rfl
      rw [this, ih (x :: s) ?_]
      intro a b ha hb
      exact hinj a b (by simp at ha ⊢; tauto) (by simp at hb ⊢; tauto)

lemma dedupF_idem (l : List Nat) : dedupF (dedupF l) = dedupF l :=
  dedupFAux_idem l []

lemma mem_dedupF {l : List Nat} {a : Nat} (ha : a ∈ l) : a ∈ dedupF l :=
  mem_dedupFAux l [] a ha (by simp)

lemma dedupF_nodup (l : List Nat) : (dedupF l).Nodup := (dedupFAux_nodup l []).1

lemma dedupF_of_nodup {l : List Nat} (h : l.Nodup) : dedupF l = l :=
  dedupFAux_of_nodup l [] h (by simp)

lemma dedupF_map (f : Nat → Nat) (l : List Nat)
    (hinj : ∀ a b, a ∈ l → b ∈ l → f a = f b → a = b) :
    dedupF (l.map f) = (dedupF l).map f := by
  have h := dedupFAux_map f l []
    (by intro a b ha hb; exact hinj a b (by simpa using ha) (by simpa using hb))
  simpa [dedupF] using h

/-- A `range'` concatenation helper. -/
lemma range'_concat_one (s n : Nat) : List.range' s (n + 1) = List.range' s n ++ [s + n] := by
  have := List.range'_append_1 s n 1
  simpa [Nat.add_comm] using this.symm

lemma zip_range_any (d : List Nat) : ∀ (s x : Nat),
    ((d.zip (List.range' s d.length)).any (fun p => p.1 == x) = true) ↔ x ∈ d := by
  induction d with
  | nil => intro s x; simp
  | cons y ys ih =>
    intro s x
    rw [List.length_cons, List.range'_succ, List.zip_cons_cons, List.any_cons]
    simp only [Bool.or_eq_true, beq_iff_eq, List.mem_cons]
    exact or_congr (by constructor <;> (intro h; exact h.symm)) (ih (s + 1) x)

lemma bc_foldl : ∀ (l d : List Nat),
    l.foldl (fun m idx => if m.any (fun p => p.1 == idx) then m
                          else m ++ [(idx, m.length + 1)])
        (d.zip (List.range' 1 d.length))
    = (d ++ dedupFAux d l).zip (List.range' 1 (d ++ dedupFAux d l).length) := by
  intro l
  induction l with
  | nil => intro d; simp [dedupFAux]
  | cons x xs ih =>
    intro d
    rw [List.foldl_cons]
    by_cases hx : x ∈ d
    · rw [if_pos ((zip_range_any d 1 x).mpr hx)]
      rw [ih d, dedupFAux, if_pos hx]
    · rw [if_neg (by
        intro hc
        exact hx ((zip_range_any d 1 x).mp hc))]
      have hlen : (d.zip (List.range' 1 d.length)).length = d.length := by
        simp
      have hstep : d.zip (List.range' 1 d.length) ++ [(x, (d.zip (List.range' 1 d.length)).length + 1)]
          = (d ++ [x]).zip (List.range' 1 (d ++ [x]).length) := by
        rw [hlen, List.length_append, List.length_cons, List.length_nil,
          range'_concat_one, List.zip_append (by simp)]
        simp [Nat.add_comm]
      rw [hstep, ih (d ++ [x])]
      have hd : dedupFAux (d ++ [x]) xs = dedupFAux (x :: d) xs := by
        apply dedupFAux_congr
        intro a; simp [or_comm]
      rw [hd, dedupFAux, if_neg hx, List.append_assoc, List.singleton_append]

/-- The citation map is the first-occurrence-deduplicated marker list paired
with `1, 2, 3, …`. -/
lemma buildCitationMap_eq (l : List Nat) :
    buildCitationMap l = (dedupF l).zip (List.range' 1 (dedupF l).length) := by
  have := bc_foldl l []
  simpa [buildCitationMap, dedupF] using this

/-! ## Scanner lemmas: how `scanGo` and `renGo` interact -/

lemma digit_ne_lbrack {c : Char} (h : c.isDigit = true) : c ≠ '[' := by
  rintro rfl; exact absurd h (by decide)

lemma digit_ne_rbrack {c : Char} (h : c.isDigit = true) : c ≠ ']' := by
  rintro rfl; exact absurd h (by decide)

lemma scanGo_digits : ∀ (D : Text), (∀ c ∈ D, c.isDigit = true) →
    ∀ (r : Text) (acc : Text), scanGo (D ++ r) (some acc) = scanGo r (some (acc ++ D)) := by
  intro D
  induction D with
  | nil => intro _ r acc; simp
  | cons c D' ih =>
    intro hD r acc
    have hc : c.isDigit = true := hD c (List.mem_cons_self _ _)
    rw [List.cons_append, scanGo, if_pos hc,
      ih (fun d hd => hD d (List.mem_cons_of_mem _ hd)) r (acc ++ [c])]
    simp

lemma renGo_digits (f : Nat → Nat) : ∀ (D : Text), (∀ c ∈ D, c.isDigit = true) →
    ∀ (r : Text) (acc : Text), renGo f (D ++ r) (some acc) = renGo f r (some (acc ++ D)) := by
  intro D
  induction D with
  | nil => intro _ r acc; simp
  | cons c D' ih =>
    intro hD r acc
    have hc : c.isDigit = true := hD c (List.mem_cons_self _ _)
    rw [List.cons_append, renGo, if_pos hc,
      ih (fun d hd => hD d (List.mem_cons_of_mem _ hd)) r (acc ++ [c])]
    simp

/-- The output of `renGo` in a pending-marker state always begins with `[`. -/
lemma renGo_some_head (f : Nat → Nat) : ∀ (t : Text) (ds : Text),
    ∃ Y, renGo f t (some ds) = '[' :: Y := by
  intro t
  induction t with
  | nil => intro ds; exact ⟨ds, rfl⟩
  | cons c cs ih =>
    intro ds
    by_cases hd : c.isDigit = true
    · obtain ⟨Y, hY⟩ := ih (ds ++ [c])
      exact ⟨Y, by rw [renGo, if_pos hd, hY]⟩
    · by_cases he : c = ']' ∧ ds ≠ []
      · exact ⟨_, by rw [renGo, if_neg (by simp [hd]), if_pos he]⟩
      · by_cases hb : c = '['
        · exact ⟨_, by rw [renGo, if_neg (by simp [hd]), if_neg he, if_pos hb]⟩
        · exact ⟨_, by rw [renGo, if_neg (by simp [hd]), if_neg he, if_neg hb]⟩

/-- Scanning a text that begins with `[` gives the same markers from any
pending state: the scanner resets on `[`. -/
lemma scanGo_bracket (Y : Text) (ds : Text) :
    scanGo ('[' :: Y) (some ds) = scanGo ('[' :: Y) none := by
  rw [scanGo, scanGo, if_neg (by decide : ¬('[' : Char).isDigit = true),
    if_neg (by rintro ⟨h, _⟩; exact absurd h (by decide)), if_pos rfl]

/-- Renumbering a text that begins with `[` from a pending state first
re-emits the pending prefix. -/
lemma renGo_bracket (f : Nat → Nat) (Y : Text) (ds : Text) :
    renGo f ('[' :: Y) (some ds) = '[' :: ds ++ renGo f ('[' :: Y) none := by
  rw [renGo, renGo, if_neg (by decide : ¬('[' : Char).isDigit = true),
    if_neg (by rintro ⟨h, _⟩; exact absurd h (by decide)), if_pos rfl, if_pos rfl]
  simp

lemma scanGo_nil (st : Option Text) : scanGo [] st = [] := by cases st <;> rfl

lemma scanGo_cons_none (c : Char) (cs : Text) :
    scanGo (c :: cs) none = if c = '[' then scanGo cs (some []) else scanGo cs none := rfl

lemma scanGo_cons_some (c : Char) (cs ds : Text) :
    scanGo (c :: cs) (some ds) =
      if c.isDigit then scanGo cs (some (ds ++ [c]))
      else if c = ']' ∧ ds ≠ [] then digitsVal ds :: scanGo cs none
      else if c = '[' then scanGo cs (some []) else scanGo cs none := rfl

lemma renGo_nil_some (f : Nat → Nat) (ds : Text) : renGo f [] (some ds) = '[' :: ds := rfl

lemma renGo_cons_none (f : Nat → Nat) (c : Char) (cs : Text) :
    renGo f (c :: cs) none =
      if c = '[' then renGo f cs (some []) else c :: renGo f cs none := rfl

lemma renGo_cons_some (f : Nat → Nat) (c : Char) (cs ds : Text) :
    renGo f (c :: cs) (some ds) =
      if c.isDigit then renGo f cs (some (ds ++ [c]))
      else if c = ']' ∧ ds ≠ [] then
        '[' :: (natRepr (f (digitsVal ds)) ++ ']' :: renGo f cs none)
      else if c = '[' then '[' :: (ds ++ renGo f cs (some []))
      else '[' :: (ds ++ c :: renGo f cs none) := rfl

/-- Main scan/rewrite correspondence: scanning the rewritten text yields the
original markers mapped through `f`, both from the idle state and from a
pending state whose consumed characters are digits. -/
lemma scan_ren_aux (f : Nat → Nat) : ∀ t : Text,
    (scanGo (renGo f t none) none = (scanGo t none).map f) ∧
    (∀ ds, (∀ c ∈ ds, c.isDigit = true) →
      scanGo (renGo f t (some ds)) none = (scanGo t (some ds)).map f) := by
  intro t
  induction t with
  | nil =>
    refine ⟨by simp [renGo, scanGo], ?_⟩
    intro ds hds
    rw [renGo_nil_some, scanGo_cons_none, if_pos rfl, scanGo_nil]
    have h1 : scanGo (ds ++ []) (some []) = scanGo [] (some ([] ++ ds)) :=
      scanGo_digits ds hds [] []
    simp only [List.append_nil, List.nil_append] at h1
    rw [h1, scanGo_nil]
    simp
  | cons c cs ih =>
    constructor
    · by_cases hc : c = '['
      · subst hc
        rw [renGo_cons_none, if_pos rfl, scanGo_cons_none, if_pos rfl]
        exact ih.2 [] (by intro d hd; cases hd)
      · rw [renGo_cons_none, if_neg hc, scanGo_cons_none, if_neg hc,
          scanGo_cons_none, if_neg hc]
        exact ih.1
    · intro ds hds
      by_cases hd : c.isDigit = true
      · rw [renGo_cons_some, if_pos hd, scanGo_cons_some, if_pos hd]
        exact ih.2 (ds ++ [c]) (by
          intro d hdm
          rcases List.mem_append.mp hdm with h | h
          · exact hds d h
          · rw [List.mem_singleton.mp h]; exact hd)
      · by_cases he : c = ']' ∧ ds ≠ []
        · rw [renGo_cons_some, if_neg hd, if_pos he,
            scanGo_cons_some, if_neg hd, if_pos he]
          rw [scanGo_cons_none, if_pos rfl]
          have h1 := scanGo_digits (natRepr (f (digitsVal ds)))
            (natRepr_all_digit _) (']' :: renGo f cs none) []
          simp only [List.nil_append] at h1
          rw [h1, scanGo_cons_some, if_neg (by decide : ¬(']' : Char).isDigit = true),
            if_pos (show (']' : Char) = ']' ∧ natRepr (f (digitsVal ds)) ≠ []
              from ⟨rfl, natRepr_ne_nil _⟩),
            digitsVal_natRepr]
          rw [List.map_cons, ih.1]
        · by_cases hb : c = '['
          · subst hb
            rw [renGo_cons_some, if_neg hd, if_neg he, if_pos rfl,
              scanGo_cons_some, if_neg hd, if_neg he, if_pos rfl]
            rw [scanGo_cons_none, if_pos rfl]
            have h1 := scanGo_digits ds hds (renGo f cs (some [])) []
            simp only [List.nil_append] at h1
            rw [h1]
            obtain ⟨Y, hY⟩ := renGo_some_head f cs []
            rw [hY, scanGo_bracket Y ds, ← hY]
            exact ih.2 [] (by intro d hdm; cases hdm)
          · rw [renGo_cons_some, if_neg hd, if_neg he, if_neg hb,
              scanGo_cons_some, if_neg hd, if_neg he, if_neg hb]
            rw [scanGo_cons_none, if_pos rfl]
            have h1 := scanGo_digits ds hds (c :: renGo f cs none) []
            simp only [List.nil_append] at h1
            rw [h1, scanGo_cons_some, if_neg hd, if_neg he, if_neg hb]
            exact ih.1

/-- Markers of the rewritten answer are the original markers mapped through
the replacement function. -/
lemma scanMarkers_renumber (f : Nat → Nat) (t : Text) :
    scanMarkers (renumber f t) = (scanMarkers t).map f :=
  (scan_ren_aux f t).1

/-- Rewriting the output of a rewrite with the identity replacement function
changes nothing: every marker of the output is already canonically
rendered. -/
lemma ren_id_aux (f : Nat → Nat) : ∀ t : Text,
    (renGo (fun n => n) (renGo f t none) none = renGo f t none) ∧
    (∀ ds, (∀ c ∈ ds, c.isDigit = true) →
      renGo (fun n => n) (renGo f t (some ds)) none = renGo f t (some ds)) := by
  intro t
  induction t with
  | nil =>
    refine ⟨rfl, ?_⟩
    intro ds hds
    rw [renGo_nil_some, renGo_cons_none, if_pos rfl]
    have h1 : renGo (fun n => n) (ds ++ []) (some []) =
        renGo (fun n => n) [] (some ([] ++ ds)) := renGo_digits _ ds hds [] []
    simp only [List.append_nil, List.nil_append] at h1
    rw [h1, renGo_nil_some]
  | cons c cs ih =>
    constructor
    · by_cases hc : c = '['
      · subst hc
        rw [renGo_cons_none, if_pos rfl]
        exact ih.2 [] (by intro d hd; cases hd)
      · rw [renGo_cons_none, if_neg hc, renGo_cons_none, if_neg hc, ih.1]
    · intro ds hds
      by_cases hd : c.isDigit = true
      · rw [renGo_cons_some, if_pos hd]
        exact ih.2 (ds ++ [c]) (by
          intro d hdm
          rcases List.mem_append.mp hdm with h | h
          · exact hds d h
          · rw [List.mem_singleton.mp h]; exact hd)
      · by_cases he : c = ']' ∧ ds ≠ []
        · rw [renGo_cons_some, if_neg hd, if_pos he]
          rw [renGo_cons_none, if_pos rfl]
          have h1 := renGo_digits (fun n => n) (natRepr (f (digitsVal ds)))
            (natRepr_all_digit _) (']' :: renGo f cs none) []
          simp only [List.nil_append] at h1
          rw [h1, renGo_cons_some, if_neg (by decide : ¬(']' : Char).isDigit = true),
            if_pos (show (']' : Char) = ']' ∧ natRepr (f (digitsVal ds)) ≠ []
              from ⟨rfl, natRepr_ne_nil _⟩),
            digitsVal_natRepr, ih.1]
        · by_cases hb : c = '['
          · subst hb
            rw [renGo_cons_some, if_neg hd, if_neg he, if_pos rfl]
            rw [renGo_cons_none, if_pos rfl]
            have h1 := renGo_digits (fun n => n) ds hds (renGo f cs (some [])) []
            simp only [List.nil_append] at h1
            rw [h1]
            obtain ⟨Y, hY⟩ := renGo_some_head f cs []
            rw [hY, renGo_bracket (fun n => n) Y ds, ← hY]
            rw [ih.2 [] (by intro d hdm; cases hdm)]
            simp
          · rw [renGo_cons_some, if_neg hd, if_neg he, if_neg hb]
            rw [renGo_cons_none, if_pos rfl]
            have h1 := renGo_digits (fun n => n) ds hds (c :: renGo f cs none) []
            simp only [List.nil_append] at h1
            rw [h1, renGo_cons_some, if_neg hd, if_neg he, if_neg hb, ih.1]

/-! ## The canonical citation map of a renumbered answer is the identity -/

lemma lookupMap_cons (x v : Nat) (T : List (Nat × Nat)) (b : Nat) :
    lookupMap ((x, v) :: T) b = if x == b then some v else lookupMap T b := by
  by_cases h : (x == b) = true
  · simp [lookupMap, List.find?_cons_of_pos, h]
  · rw [if_neg (by simpa using h)]
    unfold lookupMap
    rw [List.find?_cons_of_neg _ (by simpa using h)]

lemma lookup_zip_range_mem : ∀ (d : List Nat) (s b : Nat), b ∈ d →
    ∃ v, lookupMap (d.zip (List.range' s d.length)) b = some v ∧ s ≤ v := by
  intro d
  induction d with
  | nil => intro s b hb; cases hb
  | cons x xs ih =>
    intro s b hb
    rw [List.length_cons, List.range'_succ, List.zip_cons_cons]
    by_cases hxb : (x == b) = true
    · exact ⟨s, by rw [lookupMap_cons, if_pos hxb], le_rfl⟩
    · have hb' : b ∈ xs := by
        rcases List.mem_cons.mp hb with rfl | h
        · exact absurd (by simp : (b == b) = true) hxb
        · exact h
      obtain ⟨v, hv, hsv⟩ := ih (s + 1) b hb'
      exact ⟨v, by rw [lookupMap_cons, if_neg hxb, hv],
        le_trans (Nat.le_succ s) hsv⟩

lemma applyMap_head (x : Nat) (v : Nat) (T : List (Nat × Nat)) :
    applyMap ((x, v) :: T) x = v := by
  rw [applyMap, lookupMap_cons, if_pos (by simp)]
  rfl

lemma applyMap_skip (x v b : Nat) (T : List (Nat × Nat)) (h : x ≠ b) :
    applyMap ((x, v) :: T) b = applyMap T b := by
  rw [applyMap, lookupMap_cons, if_neg (by simpa using h), applyMap]

lemma applyMap_inj : ∀ (d : List Nat) (s : Nat), d.Nodup →
    ∀ a ∈ d, ∀ b ∈ d,
      applyMap (d.zip (List.range' s d.length)) a
        = applyMap (d.zip (List.range' s d.length)) b → a = b := by
  intro d
  induction d with
  | nil => intro s _ a ha; cases ha
  | cons x xs ih =>
    intro s hnd a ha b hb heq
    obtain ⟨hx_notin, hxs_nd⟩ := List.nodup_cons.mp hnd
    rw [List.length_cons, List.range'_succ, List.zip_cons_cons] at heq
    have key : ∀ y ∈ xs, ∃ v, applyMap ((x, s) :: xs.zip (List.range' (s + 1) xs.length)) y = v ∧ s + 1 ≤ v := by
      intro y hy
      have hxy : x ≠ y := fun hc => hx_notin (hc ▸ hy)
      obtain ⟨v, hv, hsv⟩ := lookup_zip_range_mem xs (s + 1) y hy
      refine ⟨v, ?_, hsv⟩
      rw [applyMap_skip x s y _ hxy, applyMap, hv]
      rfl
    rcases List.mem_cons.mp ha with rfl | ha' <;> rcases List.mem_cons.mp hb with hba | hb'
    · exact hba.symm
    · exfalso
      obtain ⟨v, hv, hsv⟩ := key b hb'
      rw [applyMap_head, hv] at heq
      omega
    · exfalso
      obtain ⟨v, hv, hsv⟩ := key a ha'
      subst hba
      rw [applyMap_head, hv] at heq
      omega
    · have hxa : x ≠ a := fun hc => hx_notin (hc ▸ ha')
      have hxb : x ≠ b := fun hc => hx_notin (hc ▸ hb')
      rw [applyMap_skip x s a _ hxa, applyMap_skip x s b _ hxb] at heq
      exact ih (s + 1) hxs_nd a ha' b hb' heq

lemma map_applyMap_self : ∀ (d : List Nat) (s : Nat), d.Nodup →
    d.map (applyMap (d.zip (List.range' s d.length))) = List.range' s d.length := by
  intro d
  induction d with
  | nil => intro s _; rfl
  | cons x xs ih =>
    intro s hnd
    obtain ⟨hx_notin, hxs_nd⟩ := List.nodup_cons.mp hnd
    rw [List.length_cons, List.range'_succ, List.zip_cons_cons, List.map_cons,
      applyMap_head]
    congr 1
    have hcong : ∀ b ∈ xs,
        applyMap ((x, s) :: xs.zip (List.range' (s + 1) xs.length)) b
          = applyMap (xs.zip (List.range' (s + 1) xs.length)) b := by
      intro b hb
      exact applyMap_skip x s b _ (fun hc => hx_notin (hc ▸ hb))
    rw [List.map_congr_left hcong]
    exact ih (s + 1) hxs_nd

lemma applyMap_zip_self : ∀ (m : List Nat) (x : Nat), applyMap (m.zip m) x = x := by
  intro m
  induction m with
  | nil => intro x; rfl
  | cons y ys ih =>
    intro x
    rw [List.zip_cons_cons]
    by_cases h : y = x
    · subst h; exact applyMap_head y y _
    · rw [applyMap_skip y y x _ h]
      exact ih x

lemma renumberText_eq (t : Text) :
    renumberText t = renumber (applyMap (buildCitationMap (extract_citation_indices t))) t := rfl

/-- The citation map built from an already-renumbered answer maps every
integer to itself. -/
lemma canonical_of_renumbered (t : Text) (n : Nat) :
    applyMap (buildCitationMap (extract_citation_indices (renumberText t))) n = n := by
  set f := applyMap (buildCitationMap (extract_citation_indices t)) with hf_def
  set l := scanMarkers t with hl_def
  set d := dedupF l with hd_def
  have hbc : buildCitationMap (extract_citation_indices t)
      = d.zip (List.range' 1 d.length) := by
    rw [show extract_citation_indices t = d from rfl, buildCitationMap_eq, dedupF_idem]
  have hinj : ∀ a b, a ∈ l → b ∈ l → f a = f b → a = b := by
    intro a b ha hb heq
    rw [hf_def, hbc] at heq
    exact applyMap_inj d 1 (dedupF_nodup l) a (mem_dedupF ha) b (mem_dedupF hb) heq
  have hext : extract_citation_indices (renumberText t) = List.range' 1 d.length := by
    show dedupF (scanMarkers (renumberText t)) = _
    rw [renumberText_eq, scanMarkers_renumber, ← hf_def, ← hl_def,
      dedupF_map f l hinj, ← hd_def]
    have : d.map f = List.range' 1 d.length := by
      rw [hf_def, hbc]
      exact map_applyMap_self d 1 (dedupF_nodup l)
    exact this
  rw [hext, buildCitationMap_eq, dedupF_of_nodup (List.nodup_range' 1 d.length),
    List.length_range']
  exact applyMap_zip_self _ n

/-- Citation renumbering is idempotent. -/
lemma renumber_text_idem (t : Text) : renumberText (renumberText t) = renumberText t := by
  rw [renumberText_eq (renumberText t)]
  have hid : applyMap (buildCitationMap (extract_citation_indices (renumberText t)))
      = fun n => n := funext (canonical_of_renumbered t)
  rw [hid, renumberText_eq t]
  exact (ren_id_aux (applyMap (buildCitationMap (extract_citation_indices t))) t).1

/-! ## Claim C1: renumbering map and rewrite -/

/-- Claim C1: for every answer text, citation renumbering builds the map
from each distinct bracketed integer to its 1-based position in
first-occurrence order (the map is the distinct marker list zipped with
`1, 2, 3, …`), and rewrites each marker occurrence with its mapped value
(the markers of the rewritten text are the original markers mapped through
the citation map); in particular, for the text `"[3] [1] [3] [2]"` the
citation map is `{3 ↦ 1, 1 ↦ 2, 2 ↦ 3}` and the rewritten text is
`"[1] [2] [1] [3]"`. -/
theorem C1_citation_renumbering :
    (∀ t : Text, buildCitationMap (extract_citation_indices t)
        = (extract_citation_indices t).zip
            (List.range' 1 (extract_citation_indices t).length))
    ∧ (∀ t : Text, scanMarkers (renumberText t)
        = (scanMarkers t).map
            (applyMap (buildCitationMap (extract_citation_indices t))))
    ∧ (renumberAnswer "[3] [1] [3] [2]".data).1 = [(3, 1), (1, 2), (2, 3)]
    ∧ (renumberAnswer "[3] [1] [3] [2]".data).2 = "[1] [2] [1] [3]".data := by
  refine ⟨?_, ?_, by decide, by decide⟩
  · intro t
    rw [buildCitationMap_eq]
    rw [show dedupF (extract_citation_indices t) = extract_citation_indices t from
      dedupF_idem (scanMarkers t)]
  · intro t
    rw [renumberText_eq]
    exact scanMarkers_renumber _ t

/-! ## Claim C9: renumbering is idempotent (refuting non-idempotence) -/

/-- Claim C9's existential part is false: there is no answer text on which
a second application of the renumbering changes the once-renumbered
output. -/
theorem C9_non_idempotence_refuted :
    (∃ t : Text, renumberText (renumberText t) ≠ renumberText t) = False :=
  eq_false (fun ⟨t, h⟩ => h (renumber_text_idem t))

/-- Claim C9 (amended): citation renumbering is a pure function of the
answer text and is idempotent — applying the renumbering a second time to
the already-renumbered output always yields the once-renumbered output
unchanged. -/
theorem C9_renumbering_idempotent (t : Text) :
    renumberText (renumberText t) = renumberText t :=
  renumber_text_idem t

/-! ## Claim C2: bounds check on citation indices -/

lemma mapCitedSources_foldl {α : Type} (nodes : List α) :
    ∀ (idxs : List Nat) (acc : List α),
      idxs.foldl
        (fun acc idx =>
          if 1 ≤ idx ∧ idx ≤ nodes.length then
            match nodes[idx - 1]? with
            | some s => acc ++ [s]
            | none => acc
          else acc) acc
      = acc ++ idxs.filterMap
          (fun i => if 1 ≤ i ∧ i ≤ nodes.length then nodes[i - 1]? else none) := by
  intro idxs
  induction idxs with
  | nil => intro acc; simp
  | cons x xs ih =>
    intro acc
    rw [List.foldl_cons, List.filterMap_cons]
    by_cases h : 1 ≤ x ∧ x ≤ nodes.length
    · have hlt : x - 1 < nodes.length := by omega
      rw [if_pos h, if_pos h, List.getElem?_eq_getElem hlt]
      rw [ih (acc ++ [nodes[x - 1]])]
      simp
    · rw [if_neg h, if_neg h, ih acc]

lemma mapCitedSources_eq {α : Type} (nodes : List α) (idxs : List Nat) :
    mapCitedSources nodes idxs
      = idxs.filterMap
          (fun i => if 1 ≤ i ∧ i ≤ nodes.length then nodes[i - 1]? else none) := by
  rw [mapCitedSources, mapCitedSources_foldl nodes idxs []]
  simp

/-- Claim C2: the Image Correlator maps citation index `i` to the passage at
position `i - 1` exactly when `1 ≤ i ≤ number of passages`, and silently
drops every index outside that range (the mapping is a total function —
no error is possible); with two passages and indices `[1, 2, 5]`, exactly
passages 1 and 2 are kept, in order. -/
theorem C2_citation_bounds :
    (∀ (α : Type) (nodes : List α) (idxs : List Nat),
        mapCitedSources nodes idxs
          = idxs.filterMap
              (fun i => if 1 ≤ i ∧ i ≤ nodes.length then nodes[i - 1]? else none))
    ∧ (∀ (α : Type) (p q : α), mapCitedSources [p, q] [1, 2, 5] = [p, q]) := by
  refine ⟨fun α nodes idxs => mapCitedSources_eq nodes idxs, fun α p q => ?_⟩
  rfl

/-! ## Claim C3: empty valid-citation set means no images -/

/-- Claim C3: whenever the set of validly cited passages is empty — because
the stored answer has no citation indices, or because none of them is in
range — the Image Correlator returns the empty image list (it never falls
back to processing all passages, whatever image references the passages
contain). -/
theorem C3_no_valid_citations_no_images :
    ∀ (nodes : List Source) (doc_id? : Option DocId) (answer? : Option Text)
      (avail : List Text),
      mapCitedSources nodes (citedIndicesOf answer?) = [] →
      extract_images_from_sources nodes doc_id? answer? avail = [] := by
  intro nodes did ans avail h
  rw [extract_images_from_sources.eq_def]
  by_cases hn : nodes.isEmpty
  · rw [if_pos hn]
  · rw [if_neg hn]
    cases did with
    | none => rfl
    | some d =>
      simp only [h]
      by_cases hci : (citedIndicesOf ans).isEmpty <;> simp [hci]

/-- Witness for C3 at a concrete input: one passage containing an inline
image reference (present in the index), answer citing only the out-of-range
index 5 — no images are returned. -/
theorem C3_no_valid_citations_no_images_witness :
    mapCitedSources [srcInlineMeta] (citedIndicesOf (some "[5]".data)) = []
    ∧ extract_images_from_sources [srcInlineMeta] (some "d".data)
        (some "[5]".data) [imgPath1] = [] :=
  ⟨by decide,
   C3_no_valid_citations_no_images [srcInlineMeta] (some "d".data)
     (some "[5]".data) [imgPath1] (by decide)⟩

/-! ## Claim C10: sources lacking `text` or `metadata` attributes -/

/-- Claim C10: for every source object that lacks a `text` attribute or
lacks a `metadata` attribute, `process_source_for_images` returns the empty
list (without raising), regardless of the current document identifier and
the available-image index. -/
theorem C10_missing_attributes :
    ∀ (src : Source) (doc_id : DocId) (avail : List Text),
      src.text? = none ∨ src.metadata? = none →
      process_source_for_images src doc_id avail = [] := by
  intro src d avail h
  obtain ⟨t?, m?⟩ := src
  rcases h with h | h
  · simp only at h
    subst h
    cases m? <;> rfl
  · simp only at h
    subst h
    cases t? <;> rfl

/-- Witness for C10 at a concrete input. -/
theorem C10_missing_attributes_witness :
    process_source_for_images srcNoText "d".data [imgPath1] = [] :=
  C10_missing_attributes srcNoText "d".data [imgPath1] (Or.inl rfl)

/-! ## Claim C7: synthesized captions -/

/-- Unfolding equation for `process_source_for_images` on a source with both
attributes present. -/
lemma process_source_eq (text : Text) (md : Metadata) (d : DocId) (avail : List Text) :
    process_source_for_images ⟨some text, some md⟩ d avail
      = (if (processInline (pageDisplay md) text avail).isEmpty then
          (match md.images with
           | some (ImagesParse.entries l) => metaFallback (pageDisplay md) avail l
           | _ => [])
         else processInline (pageDisplay md) text avail) := rfl

lemma processInline_caption {pd : Int} {text : Text} {avail : List Text} {r : ImageRec}
    (hr : r ∈ processInline pd text avail) : r.caption = captionFor pd := by
  obtain ⟨ref, _, hm⟩ := List.mem_filterMap.mp hr
  simp only [inlineMatch] at hm
  split at hm
  · injection hm with h2
    rw [← h2]
  · split at hm
    · injection hm with h2
      rw [← h2]
    · cases hm

lemma metaFallback_mem {pd : Int} {avail : List Text} : ∀ (l : List MetaEntry) (r : ImageRec),
    r ∈ metaFallback pd avail l →
    r.caption = captionFor pd ∧ ∃ p, r.path = some p ∧ p ∈ avail := by
  intro l
  induction l with
  | nil => intro r hr; cases hr
  | cons e rest ih =>
    intro r hr
    cases e with
    | nondict => exact ih r hr
    | dict fp p c =>
      cases fp with
      | none => exact ih r hr
      | some file_path =>
        by_cases hin : file_path ∈ avail
        · rw [show metaFallback pd avail (MetaEntry.dict (some file_path) p c :: rest)
              = if file_path ∈ avail then [⟨none, some file_path, captionFor pd⟩]
                else metaFallback pd avail rest from rfl, if_pos hin] at hr
          rw [List.mem_singleton.mp hr]
          exact ⟨rfl, file_path, rfl, hin⟩
        · rw [show metaFallback pd avail (MetaEntry.dict (some file_path) p c :: rest)
              = if file_path ∈ avail then [⟨none, some file_path, captionFor pd⟩]
                else metaFallback pd avail rest from rfl, if_neg hin] at hr
          exact ih r hr

lemma metaFallback_len {pd : Int} {avail : List Text} : ∀ (l : List MetaEntry),
    (metaFallback pd avail l).length ≤ 1 := by
  intro l
  induction l with
  | nil => exact Nat.zero_le 1
  | cons e rest ih =>
    cases e with
    | nondict => exact ih
    | dict fp p c =>
      cases fp with
      | none => exact ih
      | some file_path =>
        by_cases hin : file_path ∈ avail
        · rw [show metaFallback pd avail (MetaEntry.dict (some file_path) p c :: rest)
              = if file_path ∈ avail then [⟨none, some file_path, captionFor pd⟩]
                else metaFallback pd avail rest from rfl, if_pos hin]
          exact le_rfl
        · rw [show metaFallback pd avail (MetaEntry.dict (some file_path) p c :: rest)
              = if file_path ∈ avail then [⟨none, some file_path, captionFor pd⟩]
                else metaFallback pd avail rest from rfl, if_neg hin]
          exact ih

/-- Claim C7: every image record produced from a cited passage by the image
utility carries the caption `"Image from page P"`, where `P` is the
passage's `page` metadata plus one and defaults to `1` whenever the page
metadata is absent or not an integer (this is `pageDisplay`). -/
theorem C7_caption_from_page :
    ∀ (src : Source) (doc_id : DocId) (avail : List Text) (md : Metadata),
      src.metadata? = some md →
      ∀ r ∈ process_source_for_images src doc_id avail,
        r.caption = "Image from page ".data ++ intRepr (pageDisplay md) := by
  intro src d avail md hmd r hr
  obtain ⟨t?, m?⟩ := src
  simp only at hmd
  subst hmd
  cases t? with
  | none => cases hr
  | some text =>
    rw [process_source_eq] at hr
    by_cases hie : (processInline (pageDisplay md) text avail).isEmpty
    · rw [if_pos hie] at hr
      rcases hmi : md.images with _ | pim
      · rw [hmi] at hr; cases hr
      · rcases pim with _ | _ | l
        · rw [hmi] at hr; cases hr
        · rw [hmi] at hr; cases hr
        · rw [hmi] at hr
          exact (metaFallback_mem l r hr).1
    · rw [if_neg hie] at hr
      exact processInline_caption hr

/-- Witness for C7: a passage with `page = 0` and an inline image reference
produces a record captioned "Image from page 1". -/
theorem C7_caption_from_page_witness :
    (⟨none, some imgPath1, "Image from page 1".data⟩ : ImageRec)
        ∈ process_source_for_images srcInline "d".data [imgPath1]
    ∧ (⟨none, some imgPath1, "Image from page 1".data⟩ : ImageRec).caption
        = "Image from page ".data
          ++ intRepr (pageDisplay ⟨some (PageV.intV 0), none⟩) :=
  ⟨by decide,
   C7_caption_from_page srcInline "d".data [imgPath1]
     ⟨some (PageV.intV 0), none⟩ rfl _ (by decide)⟩

/-! ## Claim C6: metadata-entry inclusion criteria -/

/-- Counterexample to claim C6: the chat engine's metadata path does not
restrict inclusion to entries whose path is present in the document's image
index.  With an empty image index, a cited passage whose metadata lists
`x.jpg` still yields an image record for `x.jpg`. -/
theorem C6_metadata_index_cex :
    extract_images_from_sources [srcMetaOnly] (some "d".data) (some "[1]".data) []
      = [⟨some ("x.jpg".data), none, "c".data⟩]
    ∧ ("x.jpg".data ∈ ([] : List Text)) = False := by
  constructor
  · decide
  · simp

/-- Unfolding equation for `processMetaEntries` on a dict entry. -/
lemma processMetaEntries_dict (acc : List ImageRec) (fp p c : Option Text)
    (rest : List MetaEntry) :
    processMetaEntries acc (MetaEntry.dict fp p c :: rest)
      = (if pyOrPath fp p ≠ []
            ∧ ¬ acc.any (fun img => decide (img.file_path = some (pyOrPath fp p))) then
          processMetaEntries (acc ++ [⟨some (pyOrPath fp p), none, c.getD []⟩]) rest
        else processMetaEntries acc rest) := rfl

/-- Claim C6 (amended): the chat engine parses the images metadata
independently of inline references and includes every entry with a
non-empty `file_path`/`path` value, regardless of the image index (the
index is not consulted at all on that path), deduplicating only against the
already-accumulated `file_path`s; the dedicated image utility parses
metadata only as a fallback when no inline images were found, and includes
only entries whose exact `file_path` is present in the image index, at most
one per metadata list (first match, then stop). -/
theorem C6_metadata_inclusion_amended :
    (∀ (p c : Text), p ≠ [] →
        processMetaEntries [] [MetaEntry.dict (some p) none (some c)]
          = [⟨some p, none, c⟩])
    ∧ (∀ (src : Source) (doc_id : DocId) (avail : List Text) (md : Metadata)
          (text : Text),
        src.metadata? = some md → src.text? = some text →
        processInline (pageDisplay md) text avail ≠ [] →
        process_source_for_images src doc_id avail
          = processInline (pageDisplay md) text avail)
    ∧ (∀ (pd : Int) (avail : List Text) (l : List MetaEntry),
        (metaFallback pd avail l).length ≤ 1
        ∧ ∀ r ∈ metaFallback pd avail l, ∃ p, r.path = some p ∧ p ∈ avail) := by
  refine ⟨?_, ?_, ?_⟩
  · intro p c hp
    rw [processMetaEntries_dict]
    have hor : pyOrPath (some p) none = p := by
      rw [pyOrPath, if_neg (by simpa [List.isEmpty_iff] using hp)]
    rw [if_pos ⟨by rw [hor]; exact hp, by simp⟩, hor]
    rfl
  · intro src d avail md text hmd htext hne
    obtain ⟨t?, m?⟩ := src
    simp only at hmd htext
    subst hmd
    subst htext
    rw [process_source_eq, if_neg (by simpa [List.isEmpty_iff] using hne)]
  · intro pd avail l
    exact ⟨metaFallback_len l, fun r hr => (metaFallback_mem l r hr).2⟩

/-- Witness for C6 (amended) at concrete inputs: a metadata entry with path
`a.jpg` is included with an empty index nowhere in sight, and a passage with
a matching inline reference short-circuits the metadata fallback. -/
theorem C6_metadata_inclusion_amended_witness :
    processMetaEntries [] [MetaEntry.dict (some ("a.jpg".data)) none (some ("cap".data))]
      = [⟨some ("a.jpg".data), none, "cap".data⟩]
    ∧ process_source_for_images srcInline "d".data [imgPath1]
      = processInline (pageDisplay ⟨some (PageV.intV 0), none⟩)
          ("![](img1.jpg)".data) [imgPath1] :=
  ⟨C6_metadata_inclusion_amended.1 ("a.jpg".data) ("cap".data) (by decide),
   C6_metadata_inclusion_amended.2.1 srcInline "d".data [imgPath1]
     ⟨some (PageV.intV 0), none⟩ ("![](img1.jpg)".data) rfl rfl (by decide)⟩

/-! ## Claim C5: exception containment -/

/-- Claim C5: exceptions during per-passage and per-entry processing are
contained.  (1) In the chat engine's metadata loop, a non-dict entry raises
inside the `try`: the offending entry and the rest of that passage's
metadata list contribute nothing, while everything accumulated up to it is
kept and processing continues with the passage's remaining steps and the
next passage.  (2)/(3) A metadata field that fails JSON decoding, or
decodes to a non-list, makes that passage behave exactly as if it had no
images metadata — the passage still contributes its inline images and
processing continues.  (4) In the image utility, a non-dict entry is
skipped and processing continues with the next entry.  The embedding of
every correlator component is a total function, so no exception escapes. -/
theorem C5_exception_containment :
    (∀ (acc : List ImageRec) (l1 l2 : List MetaEntry),
        processMetaEntries acc (l1 ++ MetaEntry.nondict :: l2)
          = processMetaEntries acc l1)
    ∧ (∀ (doc_id : DocId) (avail : List Text) (acc : List ImageRec)
          (src : Source) (md : Metadata),
        src.metadata? = some md → md.images = some ImagesParse.badJSON →
        processOneSource doc_id avail acc src
          = processOneSource doc_id avail acc ⟨src.text?, some ⟨md.page, none⟩⟩)
    ∧ (∀ (doc_id : DocId) (avail : List Text) (acc : List ImageRec)
          (src : Source) (md : Metadata),
        src.metadata? = some md → md.images = some ImagesParse.nonList →
        processOneSource doc_id avail acc src
          = processOneSource doc_id avail acc ⟨src.text?, some ⟨md.page, none⟩⟩)
    ∧ (∀ (pd : Int) (avail : List Text) (l : List MetaEntry),
        metaFallback pd avail (MetaEntry.nondict :: l) = metaFallback pd avail l) := by
  refine ⟨?_, ?_, ?_, fun pd avail l => rfl⟩
  · intro acc l1
    induction l1 generalizing acc with
    | nil => intro l2; rfl
    | cons e l1' ih =>
      intro l2
      cases e with
      | nondict => rfl
      | dict fp p c =>
        rw [List.cons_append, processMetaEntries_dict, processMetaEntries_dict]
        by_cases hcond : pyOrPath fp p ≠ []
            ∧ ¬ acc.any (fun img => decide (img.file_path = some (pyOrPath fp p)))
        · rw [if_pos hcond, if_pos hcond]
          exact ih _ l2
        · rw [if_neg hcond, if_neg hcond]
          exact ih acc l2
  · intro d avail acc src md hmd himg
    obtain ⟨t?, m?⟩ := src
    simp only at hmd
    subst hmd
    obtain ⟨pg, imgs⟩ := md
    simp only at himg
    subst himg
    cases t? <;> rfl
  · intro d avail acc src md hmd himg
    obtain ⟨t?, m?⟩ := src
    simp only at hmd
    subst hmd
    obtain ⟨pg, imgs⟩ := md
    simp only at himg
    subst himg
    cases t? <;> rfl

/-- Witness for C5 at concrete inputs. -/
theorem C5_exception_containment_witness :
    processMetaEntries []
        ([MetaEntry.dict (some ("a.jpg".data)) none none]
          ++ MetaEntry.nondict :: [MetaEntry.dict (some ("b.jpg".data)) none none])
      = processMetaEntries [] [MetaEntry.dict (some ("a.jpg".data)) none none]
    ∧ processOneSource "d".data [] [] srcBadJSON
      = processOneSource "d".data [] [] ⟨some [], some ⟨none, none⟩⟩ :=
  ⟨C5_exception_containment.1 [] [MetaEntry.dict (some ("a.jpg".data)) none none]
     [MetaEntry.dict (some ("b.jpg".data)) none none],
   C5_exception_containment.2.1 "d".data [] [] srcBadJSON
     ⟨none, some ImagesParse.badJSON⟩ rfl rfl⟩

/-! ## Claim C4: deduplication by path is broken by a key mismatch -/

/-- Claim C4 is violated by the code: the inline records of `image.py` carry
the key `path` while the dedup comparison reads `file_path`, so a metadata
record and an inline record for the same image path both survive.  A single
cited passage whose text references `img1.jpg` inline and whose metadata
lists `img1.jpg` under `file_path` yields two image records whose effective
paths are both `img1.jpg`. -/
theorem C4_dedup_key_mismatch_eval :
    extract_images_from_sources [srcInlineMeta] (some "d".data) (some "[1]".data)
        [imgPath1]
      = [⟨some imgPath1, none, "Fig 1".data⟩,
         ⟨none, some imgPath1, "Image from page 1".data⟩]
    ∧ (extract_images_from_sources [srcInlineMeta] (some "d".data) (some "[1]".data)
        [imgPath1]).map (fun r => (r.file_path).getD ((r.path).getD []))
      = [imgPath1, imgPath1]
    ∧ (extract_images_from_sources [srcInlineMeta] (some "d".data) (some "[1]".data)
        [imgPath1]).length = 2 := by
  refine ⟨by decide, by decide, by decide⟩

/-! ## Claim C8: document image path resolution -/

lemma getDocImages_foldl (fs : FS) (ip : Text) (did : DocId) :
    ∀ (paths : List Text) (accL : List Text) (accN : Nat),
      paths.foldl
        (fun acc p =>
          match resolvePath fs ip did p with
          | some v => (acc.1 ++ [v], acc.2)
          | none => (acc.1, acc.2 + 1)) (accL, accN)
      = (accL ++ paths.filterMap (resolvePath fs ip did),
         accN + (paths.filter (fun p => (resolvePath fs ip did p).isNone)).length) := by
  intro paths
  induction paths with
  | nil => intro accL accN; simp
  | cons p ps ih =>
    intro accL accN
    rw [List.foldl_cons, List.filterMap_cons, List.filter_cons]
    cases hres : resolvePath fs ip did p with
    | some v =>
      simp only [hres, Option.isNone_some]
      rw [ih (accL ++ [v]) accN]
      simp [hres]
    | none =>
      simp only [hres, Option.isNone_none]
      rw [ih accL (accN + 1)]
      simp
      omega

/-- Claim C8: for every document identifier and every recorded image path,
resolution applies, in order, (1) existing absolutized path, (2) existing
as-given path, (3) exact filename match in the document's image directory,
(4) first match of the wildcard pattern built from the filename stem — and
otherwise drops the path, counting it as unresolved.  `get_document_images`
is the per-path resolution folded over the recorded list (validated paths
in order, plus the unresolved count), and it is a pure function of the
file-system environment `FS`, so the result is determined by a fixed
directory listing with step-4 ties broken by the first glob match. -/
theorem C8_path_resolution :
    (∀ (fs : FS) (ip : Text) (did : DocId) (paths : List Text),
        get_document_images fs ip did (some paths)
          = (paths.filterMap (resolvePath fs ip did),
             (paths.filter (fun p => (resolvePath fs ip did p).isNone)).length))
    ∧ (∀ (fs : FS) (ip : Text) (did : DocId) (p : Text),
        (fs.pathExists (fs.abspath p) = true →
            resolvePath fs ip did p = some (fs.abspath p))
        ∧ (fs.pathExists (fs.abspath p) = false → fs.pathExists p = true →
            resolvePath fs ip did p = some p)
        ∧ (fs.pathExists (fs.abspath p) = false → fs.pathExists p = false →
            fs.pathExists (joinPath ip did) = true →
            fs.pathExists (joinPath (joinPath ip did) (pathBase p)) = true →
            resolvePath fs ip did p = some (joinPath (joinPath ip did) (pathBase p)))
        ∧ (∀ (m : Text) (rest : List Text),
            fs.pathExists (fs.abspath p) = false → fs.pathExists p = false →
            fs.pathExists (joinPath ip did) = true →
            fs.pathExists (joinPath (joinPath ip did) (pathBase p)) = false →
            fs.glob (joinPath (joinPath ip did)
              ('*' :: splitextRoot (pathBase (pathBase p)) ++ "*.jpg".data)) = m :: rest →
            resolvePath fs ip did p = some m)
        ∧ (fs.pathExists (fs.abspath p) = false → fs.pathExists p = false →
            fs.pathExists (joinPath ip did) = true →
            fs.pathExists (joinPath (joinPath ip did) (pathBase p)) = false →
            fs.glob (joinPath (joinPath ip did)
              ('*' :: splitextRoot (pathBase (pathBase p)) ++ "*.jpg".data)) = [] →
            resolvePath fs ip did p = none)
        ∧ (fs.pathExists (fs.abspath p) = false → fs.pathExists p = false →
            fs.pathExists (joinPath ip did) = false →
            resolvePath fs ip did p = none)) := by
  constructor
  · intro fs ip did paths
    rw [get_document_images]
    rw [getDocImages_foldl fs ip did paths [] 0]
    simp
  · intro fs ip did p
    refine ⟨?_, ?_, ?_, ?_, ?_, ?_⟩
    · intro h1
      rw [resolvePath, if_pos h1]
    · intro h1 h2
      rw [resolvePath, if_neg (by simp [h1]), if_pos h2]
    · intro h1 h2 h3 h4
      rw [resolvePath, if_neg (by simp [h1]), if_neg (by simp [h2]),
        if_pos h3, if_pos h4]
    · intro m rest h1 h2 h3 h4 h5
      rw [resolvePath, if_neg (by simp [h1]), if_neg (by simp [h2]),
        if_pos h3, if_neg (by simp [h4])]
      show (match fs.glob (joinPath (joinPath ip did)
          ('*' :: splitextRoot (pathBase (pathBase p)) ++ "*.jpg".data)) with
        | m :: _ => some m
        | [] => none) = some m
      rw [h5]
    · intro h1 h2 h3 h4 h5
      rw [resolvePath, if_neg (by simp [h1]), if_neg (by simp [h2]),
        if_pos h3, if_neg (by simp [h4])]
      show (match fs.glob (joinPath (joinPath ip did)
          ('*' :: splitextRoot (pathBase (pathBase p)) ++ "*.jpg".data)) with
        | m :: _ => some m
        | [] => none) = none
      rw [h5]
    · intro h1 h2 h3
      rw [resolvePath, if_neg (by simp [h1]), if_neg (by simp [h2]), if_neg (by simp [h3])]

/-- Witness for C8: under `fsSample` only the document directory exists, so
resolution of `a.jpg` falls through to step 4 and returns the first glob
match; folding gives that single path and zero unresolved. -/
theorem C8_path_resolution_witness :
    get_document_images fsSample "images".data "doc1".data (some ["a.jpg".data])
      = ((["a.jpg".data]).filterMap (resolvePath fsSample "images".data "doc1".data),
         ((["a.jpg".data]).filter
           (fun p => (resolvePath fsSample "images".data "doc1".data p).isNone)).length)
    ∧ resolvePath fsSample "images".data "doc1".data ("a.jpg".data)
      = some ("images/doc1/a_123.jpg".data) :=
  ⟨C8_path_resolution.1 fsSample "images".data "doc1".data ["a.jpg".data],
   (C8_path_resolution.2 fsSample "images".data "doc1".data ("a.jpg".data)).2.2.2.1
     ("images/doc1/a_123.jpg".data) [] (by decide) (by decide) (by decide)
     (by decide) (by decide)⟩

end ChatPdf
